import Mathlib

/-
Verification development for the plume-extent contour extraction pipeline
(webviz_subsurface/plugins/_co2_migration/_utilities/plume_extent.py).

The Python source is shallowly embedded below.  Numpy 2-D float arrays become
the structure Arr (shape plus a total cell function valued in ℚ, since every
IEEE-754 double is a rational number); xtgeo.RegularSurface becomes Surf;
fallible numpy operations (broadcasting of mismatched shapes, out-of-range
list indexing) become Except values.  The Gaussian smoothing step
(scipy.ndimage.gaussian_filter) is embedded over ℝ because its kernel weights
are values of the real exponential; everything before and after it is exact
rational/boolean computation, mirroring the source line by line.
-/

set_option maxRecDepth 1000000

namespace PlumeExtent

/-- A planar point, as produced for geojson coordinates. -/
abbrev Pt := ℚ × ℚ

/-- Model of a numpy 2-D float array: a shape and a total cell function.
Cells outside the shape are irrelevant to every operation below. -/
structure Arr where
  rows : ℕ
  cols : ℕ
  val : ℕ → ℕ → ℚ

/-- Model of a real-valued 2-D array (output of the Gaussian smoother). -/
structure RArr where
  rows : ℕ
  cols : ℕ
  val : ℕ → ℕ → ℝ

/-- Model of xtgeo.RegularSurface: grid geometry fields (xori, yori, xinc,
yinc, ncol, nrow), the data values, and the missing-cell indicator
covering both np.isnan(s.values) and s.values.mask of the source. -/
structure Surf where
  ncol : ℕ
  nrow : ℕ
  xori : ℚ
  yori : ℚ
  xinc : ℚ
  yinc : ℚ
  val : ℕ → ℕ → ℚ
  missing : ℕ → ℕ → Bool

/-- Failure modes of the pipeline: numpy broadcast failure on mismatched
shapes, index-out-of-range (surfaces[0] on an empty list, x[1] on a
one-column grid), and the InvalidInput error named by the specification
(no code path raises it; it is included so that statements can distinguish
it from the failures the code actually produces). -/
inductive Err where
  | broadcast : Err
  | index : Err
  | invalidInput : Err
deriving DecidableEq

/-- Numpy broadcasting of one dimension: equal sizes, or one of them is 1. -/
def bcDim (a b : ℕ) : Option ℕ :=
  if a = b then some a else if a = 1 then some b else if b = 1 then some a else none

/-- Index into a possibly-broadcast dimension: a size-1 dimension is read at 0. -/
def bcIdx (n : ℕ) (i : ℕ) : ℕ := if n = 1 then 0 else i

/-- Numpy elementwise addition of two 2-D arrays with broadcasting; raises
(returns an error) when the shapes are broadcast-incompatible. -/
def addB (x y : Arr) : Except Err Arr :=
  match bcDim x.rows y.rows, bcDim x.cols y.cols with
  | some r, some c =>
      .ok ⟨r, c, fun i j =>
        x.val (bcIdx x.rows i) (bcIdx x.cols j) + y.val (bcIdx y.rows i) (bcIdx y.cols j)⟩
  | _, _ => .error .broadcast

/-- Python sum(list_of_arrays): starts from the int 0 (so the empty list
gives the scalar 0, modelled as none) and folds numpy addition. -/
def sumArrs : List Arr → Except Err (Option Arr)
  | [] => .ok none
  | a :: rest => (rest.foldlM addB a).map some

/-- Lines 46-51 of the source: the binary presence mask of one surface.
Missing cells (NaN or masked) are replaced by 0.0, then the strict
comparison with the threshold is cast to 0.0/1.0. -/
def binaryArr (threshold : ℚ) (s : Surf) : Arr :=
  ⟨s.ncol, s.nrow, fun i j =>
    if (if s.missing i j then 0 else s.val i j) > threshold then 1 else 0⟩

/-- The per-cell presence count stated by the specification: the number of
realizations whose (missing-replaced) value strictly exceeds the threshold. -/
def presentCount (surfaces : List Surf) (threshold : ℚ) (i j : ℕ) : ℕ :=
  surfaces.countP (fun s => (if s.missing i j then 0 else s.val i j) > threshold)

/- ---------------------------------------------------------------------
IEEE-754 binary64 model.  Every Python float literal and float product in
the source is a double; doubles are rationals of the form m * 2^e with
|m| < 2^53, and the arithmetic rounds exact rational results to the
nearest such number (ties to even).  The model below implements that
rounding for the normal range, which covers every value in this pipeline.
--------------------------------------------------------------------- -/

/-- Round a rational to the nearest integer, ties to even. -/
def rhe (q : ℚ) : ℤ :=
  let n := ⌊q⌋
  let f := q - (n : ℚ)
  if f < 1/2 then n else if 1/2 < f then n + 1 else if n % 2 = 0 then n else n + 1

/-- Fuel-based binary exponent search, downward pass: for 1 ≤ q the largest
e with 2^e ≤ q. -/
def exp2Up : ℕ → ℚ → ℤ
  | 0, _ => 0
  | fuel + 1, q => if q < 2 then 0 else exp2Up fuel (q / 2) + 1

/-- Fuel-based binary exponent search for 0 < q < 1. -/
def exp2Dn : ℕ → ℚ → ℤ
  | 0, _ => 0
  | fuel + 1, q => if 1 ≤ q then 0 else exp2Dn fuel (q * 2) - 1

/-- Binary exponent of a positive rational: the e with 2^e ≤ q < 2^(e+1)
(for exponents within the double range). -/
def exp2 (q : ℚ) : ℤ :=
  if 1 ≤ q then exp2Up 1100 q else exp2Dn 1100 q

/-- Round a rational to the nearest IEEE-754 binary64 value (round to
nearest, ties to even), for results in the normal range. -/
def rnd (q : ℚ) : ℚ :=
  if q = 0 then 0
  else
    let a := |q|
    let e := exp2 a
    let m := rhe (a * (2 : ℚ) ^ (52 - e))
    (if q < 0 then -1 else 1) * (m : ℚ) * (2 : ℚ) ^ (e - 52)

/-- Double multiplication: round the exact product. -/
def mulD (x y : ℚ) : ℚ := rnd (x * y)

/-- The double denoted by the Python literal 0.1. -/
def lit01 : ℚ := rnd (1/10)

/-- The double denoted by the Python literal 0.5. -/
def lit05 : ℚ := rnd (1/2)

/-- The double denoted by the Python literal 0.9. -/
def lit09 : ℚ := rnd (9/10)

/-- Lines 24-28 of the source: the gated list of probability levels.
Starts at [0.1]; 0.5 is appended when len(surfaces) > 2, then 0.9 when
len(surfaces) > 1. -/
def p_levels (n : ℕ) : List ℚ :=
  [lit01] ++ (if 2 < n then [lit05] else []) ++ (if 1 < n then [lit09] else [])

/-- Line 29 of the source: absolute iso-values, each level times the number
of surfaces, in double arithmetic (the integer converts exactly). -/
def plume_levels (n : ℕ) : List ℚ :=
  (p_levels n).map (fun lvl => mulD lvl (n : ℚ))

/- ---------------------------------------------------------------------
Python float formatting.  Modelled from the spec: the source builds each
feature identifier with an f-string on level * 100; CPython renders a float
as the shortest decimal string that parses back to exactly the same double,
in fixed notation when the decimal exponent k satisfies -4 ≤ k < 16 and
scientific notation otherwise, with a trailing ".0" for integral values.
--------------------------------------------------------------------- -/

/-- Fuel-based decimal exponent search, downward pass. -/
def exp10Up : ℕ → ℚ → ℤ
  | 0, _ => 0
  | fuel + 1, q => if q < 10 then 0 else exp10Up fuel (q / 10) + 1

/-- Fuel-based decimal exponent search for 0 < q < 1. -/
def exp10Dn : ℕ → ℚ → ℤ
  | 0, _ => 0
  | fuel + 1, q => if 1 ≤ q then 0 else exp10Dn fuel (q * 10) - 1

/-- Decimal exponent of a positive rational: the k with 10^k ≤ q < 10^(k+1)
(within the double range). -/
def exp10 (q : ℚ) : ℤ :=
  if 1 ≤ q then exp10Up 400 q else exp10Dn 400 q

/-- The significand of v rounded to d significant decimal digits, paired
with its power-of-ten weight. -/
def sigAt (v : ℚ) (k : ℤ) (d : ℕ) : ℤ × ℤ :=
  (rhe (v / (10 : ℚ) ^ (k - d + 1)), k - d + 1)

/-- Shortest-round-trip digit search: the fewest significant digits
(1 to 17) whose nearest decimal of that length rounds back to v. -/
def shortestSig (v : ℚ) : ℤ × ℤ :=
  let k := exp10 v
  match ((List.range 17).map (fun d => d + 1)).find?
      (fun d => decide (rnd (((sigAt v k d).1 : ℚ) * (10 : ℚ) ^ (sigAt v k d).2) = v)) with
  | some d => sigAt v k d
  | none => sigAt v k 17

/-- Strip trailing zero digits from a significand, moving them into the
exponent. -/
def stripZ : ℕ → ℤ → ℤ × ℤ
  | 0, s => (s, 0)
  | fuel + 1, s =>
    if s % 10 = 0 ∧ s ≠ 0 then
      let p := stripZ fuel (s / 10)
      (p.1, p.2 + 1)
    else (s, 0)

/-- Render the positive value s * 10^m (s > 0, no trailing zero digit) the
way CPython repr renders a float. -/
def pyFmt (s : ℤ) (m : ℤ) : String :=
  let ds := (toString s.toNat).toList
  let k := m + ds.length - 1
  if -4 ≤ k ∧ k < 16 then
    if 0 ≤ k then
      let intLen := k.toNat + 1
      if ds.length ≤ intLen then
        String.mk ds ++ String.mk (List.replicate (intLen - ds.length) '0') ++ ".0"
      else
        String.mk (ds.take intLen) ++ "." ++ String.mk (ds.drop intLen)
    else
      "0." ++ String.mk (List.replicate (-(k + 1)).toNat '0') ++ String.mk ds
  else
    let mant :=
      if ds.length = 1 then String.mk ds
      else String.mk (ds.take 1) ++ "." ++ String.mk (ds.drop 1)
    let estr := if k.natAbs < 10 then "0" ++ toString k.natAbs else toString k.natAbs
    mant ++ "e" ++ (if k < 0 then "-" else "+") ++ estr

/-- Modelled from the spec: CPython str() of a double (shortest decimal
that round-trips, Python fixed/scientific formatting rules). -/
def pyFloatRepr (v : ℚ) : String :=
  if v = 0 then "0.0"
  else if v < 0 then
    let sm := shortestSig (-v)
    let sz := stripZ 20 sm.1
    "-" ++ pyFmt sz.1 (sm.2 + sz.2)
  else
    let sm := shortestSig v
    let sz := stripZ 20 sm.1
    pyFmt sz.1 (sm.2 + sz.2)

/-- Line 34 of the source: the feature identifier f-string P{level * 100},
with the multiplication performed in double arithmetic. -/
def featureId (level : ℚ) : String := "P" ++ pyFloatRepr (mulD level 100)

/- ---------------------------------------------------------------------
Contour finding (_find_contours, lines 87-150): morphological boundary of
the binary mask, 4-connected component labelling, angular ordering around
the component centroid, and closing of each ring.
--------------------------------------------------------------------- -/

/-- A pixel position (array indices). -/
abbrev Cell := ℕ × ℕ

/-- Row-major enumeration of all positions of a rows-by-cols array (the
order used by np.where). -/
def cellList (rows cols : ℕ) : List Cell :=
  (List.range rows).flatMap (fun i => (List.range cols).map (fun j => (i, j)))

/-- Read the mask at a signed position; out-of-bounds reads are false
(scipy binary_erosion default border_value=0). -/
def maskAt (rows cols : ℕ) (z : ℕ → ℕ → Bool) (i j : ℤ) : Bool :=
  if 0 ≤ i ∧ i < (rows : ℤ) ∧ 0 ≤ j ∧ j < (cols : ℤ) then z i.toNat j.toNat else false

/-- Line 106: binary erosion of the mask with a full 3-by-3 structuring
element, value outside the array taken as 0. -/
def erodedAt (rows cols : ℕ) (z : ℕ → ℕ → Bool) (i j : ℕ) : Bool :=
  (List.range 3).all fun di => (List.range 3).all fun dj =>
    maskAt rows cols z ((i : ℤ) + di - 1) ((j : ℤ) + dj - 1)

/-- Line 107: boundary cells, mask AND NOT eroded, in row-major order. -/
def boundaryCells (rows cols : ℕ) (z : ℕ → ℕ → Bool) : List Cell :=
  (cellList rows cols).filter (fun c => z c.1 c.2 && ! erodedAt rows cols z c.1 c.2)

/-- The 4-connectivity used by scipy.ndimage.label with its default
structuring element. -/
def adj4 (p q : Cell) : Bool :=
  (p.1 == q.1 && (p.2 + 1 == q.2 || q.2 + 1 == p.2)) ||
  (p.2 == q.2 && (p.1 + 1 == q.1 || q.1 + 1 == p.1))

/-- One step of component growth: keep cells (in row-major order) already
collected or 4-adjacent to a collected cell. -/
def grow (allCells : List Cell) (cur : List Cell) : List Cell :=
  allCells.filter (fun c => cur.contains c || cur.any (fun p => adj4 p c))

/-- The 4-connected component of p inside allCells, listed row-major
(iterating growth to its fixpoint). -/
def reach (allCells : List Cell) (p : Cell) : List Cell :=
  Nat.iterate (grow allCells) allCells.length [p]

/-- Lines 110-118: label connected components in scan order; each
component lists its cells row-major, exactly as np.where returns them. -/
def components (allCells : List Cell) : List (List Cell) :=
  allCells.foldl
    (fun acc p => if acc.any (fun comp => comp.contains p) then acc
                  else acc ++ [reach allCells p])
    []

/-- Classify a direction vector by the quadrant bands of atan2 (range
(-pi, pi]): 0 for angles in (-pi, 0), 1 for angle 0 (including the zero
vector, since atan2(0, 0) = 0), 2 for (0, pi), 3 for angle pi. -/
def aclass (v : Pt) : ℕ :=
  if v.2 < 0 then 0 else if v.2 = 0 ∧ 0 ≤ v.1 then 1 else if 0 < v.2 then 2 else 3

/-- The planar cross product, deciding angular order within one band. -/
def crossZ (v w : Pt) : ℚ := v.1 * w.2 - v.2 * w.1

/-- Exact comparison of atan2 values of two direction vectors: band order
first, within the open half-plane bands the cross product. -/
def angleLtB (v w : Pt) : Bool :=
  decide (aclass v < aclass w) || (aclass v == aclass w && decide (0 < crossZ v w))

/-- Total preorder (by angle around the centroid c) used to sort a
component. -/
def angleLeB (c : Pt) (p q : Pt) : Bool :=
  ! angleLtB (q.1 - c.1, q.2 - c.2) (p.1 - c.1, p.2 - c.2)

/-- Insert into a sorted list (insertion sort step). -/
def insertSorted (le : Pt → Pt → Bool) (x : Pt) : List Pt → List Pt
  | [] => [x]
  | y :: ys => if le x y then x :: y :: ys else y :: insertSorted le x ys

/-- Sort the component points by angle (np.argsort of the atan2 angles;
the source leaves the order of exactly-equal angles unspecified). -/
def sortPts (le : Pt → Pt → Bool) (l : List Pt) : List Pt :=
  l.foldr (insertSorted le) []

/-- Sum of a list of rationals. -/
def qsum (l : List ℚ) : ℚ := l.foldl (fun a b => a + b) 0

/-- Lines 124-143: map component cells to real-world coordinates (indices
clamped into the mesh shape) and order them by angle from the centroid. -/
def contourOf (mrows mcols : ℕ) (x y : ℕ → ℚ) (comp : List Cell) : List Pt :=
  let pts := comp.map (fun c => (x (min c.1 (mrows - 1)), y (min c.2 (mcols - 1))))
  let cx := qsum (pts.map Prod.fst) / pts.length
  let cy := qsum (pts.map Prod.snd) / pts.length
  sortPts (angleLeB (cx, cy)) pts

/-- Lines 87-150: _find_contours.  The mask z is the already-boolean array
passed in (the source compares it with 0.5, which is the identity on
booleans).  Degenerate all-false / all-true masks yield no contours;
components of fewer than 3 cells are dropped; each remaining component
becomes an angle-ordered ring closed by appending its first point. -/
def find_contours (rows cols mrows mcols : ℕ) (x y : ℕ → ℚ) (z : ℕ → ℕ → Bool) :
    List (List Pt) :=
  let trueCount := (cellList rows cols).countP (fun c => z c.1 c.2)
  if trueCount = 0 ∨ trueCount = rows * cols then []
  else
    (components (boundaryCells rows cols z)).filterMap (fun comp =>
      if comp.length < 3 then none
      else
        match contourOf mrows mcols x y comp with
        | [] => none
        | h :: t => some ((h :: t) ++ [h]))

/- ---------------------------------------------------------------------
Simplification (_simplify, lines 207-209).  Modelled from the spec:
shapely LineString.simplify is a standard Douglas-Peucker line
simplification (spec section 4.4); embedded here over exact rationals by
comparing squared distances against the squared tolerance.
--------------------------------------------------------------------- -/

/-- Squared euclidean distance. -/
def dist2 (p q : Pt) : ℚ := (p.1 - q.1) ^ 2 + (p.2 - q.2) ^ 2

/-- Squared distance from p to the segment from a to b. -/
def seg2 (a b p : Pt) : ℚ :=
  let dx := b.1 - a.1
  let dy := b.2 - a.2
  let l2 := dx ^ 2 + dy ^ 2
  if l2 = 0 then dist2 p a
  else
    let t := ((p.1 - a.1) * dx + (p.2 - a.2) * dy) / l2
    let tc := max 0 (min 1 t)
    dist2 p (a.1 + tc * dx, a.2 + tc * dy)

/-- Index and value of a maximal squared distance to the segment a-b among
the interior points (first maximum kept). -/
def argmaxSeg (a b : Pt) (mid : List Pt) : Option (ℕ × ℚ) :=
  mid.enum.foldl
    (fun best ip =>
      match best with
      | none => some (ip.1, seg2 a b ip.2)
      | some kd => if kd.2 < seg2 a b ip.2 then some (ip.1, seg2 a b ip.2) else some kd)
    none

/-- Douglas-Peucker on the interior points between fixed endpoints a and b
(fuel-based recursion; the fuel passed by simplify always suffices). -/
def dpAux : ℕ → ℚ → Pt → List Pt → Pt → List Pt
  | 0, _, a, _, b => [a, b]
  | fuel + 1, tol2, a, mid, b =>
    match argmaxSeg a b mid with
    | none => [a, b]
    | some kd =>
      if kd.2 ≤ tol2 then [a, b]
      else
        let m := mid.getD kd.1 a
        dpAux fuel tol2 a (mid.take kd.1) m ++ (dpAux fuel tol2 m (mid.drop (kd.1 + 1)) b).tail

/-- Modelled from the spec: _simplify (shapely LineString.simplify as
Douglas-Peucker).  Keeps both endpoints; sequences of fewer than 2 points
cannot arise from the contour finder. -/
def simplify (simplify_dist : ℚ) : List Pt → List Pt
  | [] => []
  | [p] => [p]
  | a :: b :: rest =>
    dpAux (rest.length + 2) (simplify_dist * simplify_dist) a
      ((b :: rest).dropLast) ((b :: rest).getLast (List.cons_ne_nil b rest))

/- ---------------------------------------------------------------------
Gaussian smoothing (scipy.ndimage.gaussian_filter, mode="nearest").
The kernel weights are normalized samples of the real exponential, so this
layer is embedded over ℝ (idealizing the float arithmetic of scipy); its
structure (radius, normalization, edge replication, the identity branch
for sigma below scipy's 1e-15 cutoff) follows the scipy implementation.
--------------------------------------------------------------------- -/

/-- Kernel radius: int(truncate * sigma + 0.5) with scipy default
truncate = 4.0. -/
def lwOf (sigma : ℚ) : ℕ := (Int.floor (4 * sigma + 1/2)).toNat

/-- Unnormalized Gaussian weight exp(-k^2 / (2 sigma^2)). -/
noncomputable def gw (sigma : ℚ) (k : ℤ) : ℝ :=
  Real.exp (-((k : ℝ)) ^ 2 / (2 * ((sigma : ℝ)) ^ 2))

/-- Normalized Gaussian kernel weight. -/
noncomputable def gkern (sigma : ℚ) (k : ℤ) : ℝ :=
  gw sigma k / (Finset.Icc (-(lwOf sigma : ℤ)) (lwOf sigma : ℤ)).sum (fun j => gw sigma j)

/-- Replicate-edge index handling (mode="nearest"). -/
def clampIdx (n : ℕ) (z : ℤ) : ℕ := (max 0 (min z ((n : ℤ) - 1))).toNat

/-- Correlation with the 1-D Gaussian kernel along axis 0. -/
noncomputable def corrRows (sigma : ℚ) (a : RArr) : RArr :=
  ⟨a.rows, a.cols, fun i j =>
    (Finset.Icc (-(lwOf sigma : ℤ)) (lwOf sigma : ℤ)).sum
      (fun k => gkern sigma k * a.val (clampIdx a.rows ((i : ℤ) + k)) j)⟩

/-- Correlation with the 1-D Gaussian kernel along axis 1. -/
noncomputable def corrCols (sigma : ℚ) (a : RArr) : RArr :=
  ⟨a.rows, a.cols, fun i j =>
    (Finset.Icc (-(lwOf sigma : ℤ)) (lwOf sigma : ℤ)).sum
      (fun k => gkern sigma k * a.val i (clampIdx a.cols ((j : ℤ) + k)))⟩

/-- Inclusion of a rational array into the real-valued arrays. -/
noncomputable def q2r (a : Arr) : RArr := ⟨a.rows, a.cols, fun i j => (a.val i j : ℝ)⟩

/-- Line 53: scipy.ndimage.gaussian_filter(count, sigma, mode="nearest").
Scipy skips every axis whose sigma is at most 1e-15 and then copies the
input unchanged, so such sigmas (in particular sigma = 0) are the
identity. -/
noncomputable def gaussian_filter (sigma : ℚ) (a : Arr) : RArr :=
  if sigma > 1 / 10 ^ 15 then corrCols sigma (corrRows sigma (q2r a)) else q2r a

/-- Lines 43-53: truncate_surfaces.  Binary presence masks (missing cells
replaced by 0.0), numpy sum with broadcasting, Gaussian smoothing.  The
empty input sums to the Python int 0 (none), which gaussian_filter returns
unchanged as a 0-d array. -/
noncomputable def truncate_surfaces (surfaces : List Surf) (threshold smoothing : ℚ) :
    Except Err (Option RArr) :=
  (sumArrs (surfaces.map (binaryArr threshold))).map
    (fun c => c.map (gaussian_filter smoothing))

/- ---------------------------------------------------------------------
Contour extraction over the smoothed field and the full pipeline.
--------------------------------------------------------------------- -/

/-- Boolean comparison of a smoothed (real) cell against an iso-level. -/
noncomputable def rge (a : ℝ) (b : ℚ) : Bool :=
  @decide ((b : ℚ) ≤ a) (Classical.propDecidable _)

/-- Lines 56-84: _extract_contours and _find_all_contours.  Real-world
axes from the reference surface (x[1] requires at least two columns, y[1]
at least two rows, otherwise numpy raises IndexError), tolerance
simplify_factor times the mean cell size, one contour list per level, each
contour simplified. -/
noncomputable def extract_contours (pc : RArr) (ref : Surf) (simplify_factor : ℚ)
    (levels : List ℚ) : Except Err (List (List (List Pt))) :=
  if ref.ncol < 2 ∨ ref.nrow < 2 then .error .index
  else
    let x : ℕ → ℚ := fun i => ref.xori + (i : ℚ) * ref.xinc
    let y : ℕ → ℚ := fun j => ref.yori + (j : ℚ) * ref.yinc
    let res := (|x 1 - x 0| + |y 1 - y 0|) / 2
    let simplify_dist := simplify_factor * res
    .ok (levels.map (fun level =>
      (find_contours pc.rows pc.cols ref.ncol ref.nrow x y
        (fun i j => rge (pc.val i j) level)).map (simplify simplify_dist)))

/-- A geojson Feature with a LineString geometry, as built on lines 33-36. -/
structure Feature where
  id : String
  coords : List Pt
deriving DecidableEq

/-- A geojson FeatureCollection. -/
structure FeatureCollection where
  features : List Feature
deriving DecidableEq

/-- Lines 15-40: plume_polygons.  The module-level MISSING_DEPENDENCIES
flag is passed explicitly.  When it is set the function returns an empty
FeatureCollection before doing anything else; otherwise it aggregates and
smooths the surfaces, gates the probability levels on the number of
surfaces, extracts contours (surfaces[0] raises IndexError on an empty
list), and assembles one feature per (level, polygon) pair. -/
noncomputable def plume_polygons (missing_dependencies : Bool) (surfaces : List Surf)
    (threshold : ℚ) (smoothing : ℚ) (simplify_factor : ℚ) :
    Except Err FeatureCollection :=
  if missing_dependencies then .ok ⟨[]⟩
  else
    match truncate_surfaces surfaces threshold smoothing with
    | .error e => .error e
    | .ok plume_count =>
      match surfaces with
      | [] => .error .index
      | s0 :: _ =>
        match plume_count with
        | none => .error .index
        | some pc =>
          match extract_contours pc s0 simplify_factor (plume_levels surfaces.length) with
          | .error e => .error e
          | .ok contours =>
            .ok ⟨((p_levels surfaces.length).zip contours).flatMap
                  (fun lp => lp.2.map (fun poly => ⟨featureId lp.1, poly⟩))⟩

/-- Shape observer on a pipeline intermediate result. -/
def okShape : Except Err (Option RArr) → Option (ℕ × ℕ)
  | .ok (some a) => some (a.rows, a.cols)
  | _ => none

/-- Cell observer on a pipeline intermediate result. -/
def okCell (r : Except Err (Option RArr)) (i j : ℕ) : Option ℝ :=
  match r with
  | .ok (some a) => some (a.val i j)
  | _ => none

/-- Whether an Except value is an error. -/
def isErr {α : Type} : Except Err α → Bool
  | .error _ => true
  | .ok _ => false

/- ---------------------------------------------------------------------
Concrete inputs used by witnesses and counterexamples.
--------------------------------------------------------------------- -/

/-- A 1x1 surface whose only cell is missing (NaN or masked). -/
def missSurf : Surf := ⟨1, 1, 0, 0, 1, 1, fun _ _ => 0, fun _ _ => true⟩

/-- A 1x2 surface of ones, nothing missing. -/
def surfA : Surf := ⟨1, 2, 0, 0, 1, 1, fun _ _ => 1, fun _ _ => false⟩

/-- A 2x2 surface of ones, nothing missing. -/
def surfB : Surf := ⟨2, 2, 0, 0, 1, 1, fun _ _ => 1, fun _ _ => false⟩

/-- A 4x4 surface that is 1.0 exactly on the 2x2 block with both indices
in, nothing missing elsewhere. -/
def surfBlock : Surf :=
  ⟨4, 4, 0, 0, 1, 1,
    fun i j => if 1 ≤ i ∧ i ≤ 2 ∧ 1 ≤ j ∧ j ≤ 2 then 1 else 0,
    fun _ _ => false⟩

/-- A 4x4 boolean mask that is true exactly on the 2x2 block with both
indices in the set containing 1 and 2. -/
def blockMask : ℕ → ℕ → Bool := fun i j =>
  decide (1 ≤ i) && decide (i ≤ 2) && decide (1 ≤ j) && decide (j ≤ 2)

/-- The closed contour the finder produces for blockMask on the identity
coordinate axes. -/
def contW : List Pt := [(1, 1), (2, 1), (2, 2), (1, 2), (1, 1)]

/- ---------------------------------------------------------------------
Theorems.
--------------------------------------------------------------------- -/

theorem lit01_ne_lit05 : lit01 ≠ lit05 := by with_unfolding_all decide

theorem lit01_ne_lit09 : lit01 ≠ lit09 := by with_unfolding_all decide

theorem lit05_ne_lit09 : lit05 ≠ lit09 := by with_unfolding_all decide

/-- C2: if the geometry capability (shapely) is unavailable at import
time, plume_polygons returns an empty but well-formed FeatureCollection
for every input, and does not fail. -/
theorem missing_dependencies_empty_collection (surfaces : List Surf)
    (threshold smoothing simplify_factor : ℚ) :
    plume_polygons true surfaces threshold smoothing simplify_factor =
      Except.ok ⟨[]⟩ := rfl

/-- C5 (amended): when the surface list is empty and the geometry
capability is available, plume_polygons fails rather than returning a
result, but the failure is the index error raised by reading surfaces[0],
not an explicit InvalidInput validation. -/
theorem empty_surfaces_index_error (threshold smoothing simplify_factor : ℚ) :
    plume_polygons false [] threshold smoothing simplify_factor =
      Except.error Err.index := rfl

/-- C5 counterexample: on the concrete empty input the pipeline fails with
the index error, which is not the InvalidInput error the claim names. -/
theorem empty_surfaces_error_not_invalid_input :
    plume_polygons false [] 0 0 1 = Except.error Err.index ∧
    plume_polygons false [] 0 0 1 ≠ Except.error Err.invalidInput := by
  refine ⟨rfl, fun h => ?_⟩
  have h2 : (Except.error Err.index : Except Err FeatureCollection) =
      Except.error Err.invalidInput := h
  exact Err.noConfusion (Except.error.inj h2)

/-- C3 (amended): for every nonnegative threshold, a missing cell (NaN or
masked) never counts as present: it is replaced by 0.0, which does not
exceed the threshold, so that realization contributes 0 to the presence
count at the cell. -/
theorem missing_cells_never_present_nonneg (s : Surf) (threshold : ℚ) (i j : ℕ)
    (hth : 0 ≤ threshold) (hm : s.missing i j = true) :
    (binaryArr threshold s).val i j = 0 ∧
    (∀ rest : List Surf,
      presentCount (s :: rest) threshold i j = presentCount rest threshold i j) := by
  have hnp : ¬((if s.missing i j then (0 : ℚ) else s.val i j) > threshold) := by
    rw [hm]
    simpa using hth
  constructor
  · simp only [binaryArr, if_neg hnp]
  · intro rest
    simp only [presentCount, List.countP_cons, decide_eq_true_eq, if_neg hnp,
      Nat.add_zero]

/-- C3 witness: threshold 0 on the all-missing surface. -/
theorem missing_cells_never_present_nonneg_witness :
    (0 : ℚ) ≤ 0 ∧ missSurf.missing 0 0 = true ∧
    ((binaryArr 0 missSurf).val 0 0 = 0 ∧
      (∀ rest : List Surf, presentCount (missSurf :: rest) 0 0 0 =
        presentCount rest 0 0 0)) :=
  ⟨le_refl 0, rfl, missing_cells_never_present_nonneg missSurf 0 0 0 (le_refl 0) rfl⟩

/-- C3 counterexample: with the negative threshold -1 the missing cell is
replaced by 0.0, which exceeds the threshold, so the mask marks it
present, contrary to the claim which quantifies over every threshold. -/
theorem missing_cell_present_negative_threshold :
    missSurf.missing 0 0 = true ∧ (binaryArr (-1) missSurf).val 0 0 = 1 := by
  constructor
  · rfl
  · simp only [binaryArr, missSurf]
    norm_num

/-- C10 counterexample: the identifier of level 0.1 is not the claimed
float artifact P10.000000000000002, because the double nearest 1/10 times
100 rounds back to exactly 10.0. -/
theorem feature_id_not_float_artifact :
    featureId lit01 ≠ "P10.000000000000002" := by
  with_unfolding_all decide

/-- C10 (amended): the identifier is the letter P followed by the Python
string of level * 100 computed in IEEE double arithmetic, unrounded by
the code; the product double(0.1) * 100 rounds to exactly 10.0, so the
canonical levels produce P10.0, P50.0 and P90.0 (and in particular not
P10 and not P10.000000000000002). -/
theorem canonical_feature_ids :
    featureId lit01 = "P10.0" ∧ featureId lit05 = "P50.0" ∧
    featureId lit09 = "P90.0" ∧ mulD lit01 100 = 10 ∧
    featureId lit01 ≠ "P10" := by
  with_unfolding_all decide

theorem gaussian_filter_rows (sigma : ℚ) (a : Arr) :
    (gaussian_filter sigma a).rows = a.rows := by
  unfold gaussian_filter
  split <;> rfl

theorem gaussian_filter_cols (sigma : ℚ) (a : Arr) :
    (gaussian_filter sigma a).cols = a.cols := by
  unfold gaussian_filter
  split <;> rfl

/-- Two-surface aggregation characterized by the broadcast of the two
shapes. -/
theorem truncate_two (s1 s2 : Surf) (threshold smoothing : ℚ) :
    truncate_surfaces [s1, s2] threshold smoothing =
      match bcDim s1.ncol s2.ncol, bcDim s1.nrow s2.nrow with
      | some r, some c =>
          Except.ok (some (gaussian_filter smoothing
            ⟨r, c, fun i j =>
              (binaryArr threshold s1).val (bcIdx s1.ncol i) (bcIdx s1.nrow j) +
              (binaryArr threshold s2).val (bcIdx s2.ncol i) (bcIdx s2.nrow j)⟩))
      | _, _ => Except.error Err.broadcast := by
  have hfold : List.foldlM addB (binaryArr threshold s1) [binaryArr threshold s2] =
      addB (binaryArr threshold s1) (binaryArr threshold s2) := by
    cases h : addB (binaryArr threshold s1) (binaryArr threshold s2) <;>
      simp [List.foldlM_cons, List.foldlM_nil, h]
  rw [show truncate_surfaces [s1, s2] threshold smoothing =
        ((List.foldlM addB (binaryArr threshold s1)
          [binaryArr threshold s2]).map some).map
          (fun c => c.map (gaussian_filter smoothing)) from rfl,
      hfold]
  cases hr : bcDim s1.ncol s2.ncol with
  | none =>
    cases hc : bcDim s1.nrow s2.nrow <;> simp [addB, binaryArr, hr, hc, Except.map]
  | some r =>
    cases hc : bcDim s1.nrow s2.nrow with
    | none => simp [addB, binaryArr, hr, hc, Except.map]
    | some c => simp [addB, binaryArr, hr, hc, Except.map]

/-- C4 (amended): truncate_surfaces performs no explicit shape validation.
For two input surfaces it fails precisely when the two shapes are
broadcast-incompatible in some dimension (the numpy addition raises); a
broadcast-compatible pair of different shapes, such as (1, m) with (n, m),
is silently broadcast to the common shape rather than rejected with a
ShapeMismatch error. -/
theorem truncate_surfaces_broadcast_characterization (s1 s2 : Surf)
    (threshold smoothing : ℚ) :
    (isErr (truncate_surfaces [s1, s2] threshold smoothing) = true ↔
      (bcDim s1.ncol s2.ncol = none ∨ bcDim s1.nrow s2.nrow = none)) ∧
    okShape (truncate_surfaces [s1, s2] threshold smoothing) =
      (bcDim s1.ncol s2.ncol).bind (fun r =>
        (bcDim s1.nrow s2.nrow).map (fun c => (r, c))) := by
  have hmain := truncate_two s1 s2 threshold smoothing
  cases hr : bcDim s1.ncol s2.ncol with
  | none =>
    cases hc : bcDim s1.nrow s2.nrow with
    | none => rw [hr, hc] at hmain; simp [hmain, isErr, okShape]
    | some c => rw [hr, hc] at hmain; simp [hmain, isErr, okShape]
  | some r =>
    cases hc : bcDim s1.nrow s2.nrow with
    | none => rw [hr, hc] at hmain; simp [hmain, isErr, okShape]
    | some c =>
      rw [hr, hc] at hmain
      simp [hmain, isErr, okShape, gaussian_filter_rows, gaussian_filter_cols]

/-- C4 counterexample: the broadcast-compatible shape pair (1, 2) and
(2, 2) is not rejected: the aggregation succeeds and silently broadcasts
to the common shape (2, 2). -/
theorem broadcast_compatible_pair_not_rejected :
    (surfA.ncol, surfA.nrow) ≠ (surfB.ncol, surfB.nrow) ∧
    isErr (truncate_surfaces [surfA, surfB] 0 0) = false ∧
    okShape (truncate_surfaces [surfA, surfB] 0 0) = some (2, 2) := by
  refine ⟨by decide, ?_, ?_⟩ <;> with_unfolding_all decide

/-- C1: for every nonempty list of N input surfaces the gated probability
levels are exactly: 0.1 always, 0.5 additionally iff N > 2, 0.9
additionally iff N > 1; and the absolute iso-values handed to the contour
extractor are exactly these levels multiplied by N (in double
arithmetic). -/
theorem p_levels_gating (n : ℕ) (_hn : 1 ≤ n) :
    lit01 ∈ p_levels n ∧
    (lit05 ∈ p_levels n ↔ 2 < n) ∧
    (lit09 ∈ p_levels n ↔ 1 < n) ∧
    (∀ l ∈ p_levels n, l = lit01 ∨ (l = lit05 ∧ 2 < n) ∨ (l = lit09 ∧ 1 < n)) ∧
    plume_levels n = (p_levels n).map (fun lvl => mulD lvl (n : ℚ)) := by
  refine ⟨by simp [p_levels], ?_, ?_, ?_, rfl⟩
  · by_cases h2 : 2 < n <;> by_cases h1 : 1 < n
    · simp [p_levels, h1, h2]
    · omega
    · simp [p_levels, h1, h2, Ne.symm lit01_ne_lit05, lit05_ne_lit09]
    · simp [p_levels, h1, h2, Ne.symm lit01_ne_lit05]
  · by_cases h2 : 2 < n <;> by_cases h1 : 1 < n
    · simp [p_levels, h1, h2]
    · omega
    · simp [p_levels, h1, h2]
    · simp [p_levels, h1, h2, Ne.symm lit01_ne_lit09]
  · intro l hl
    by_cases h2 : 2 < n <;> by_cases h1 : 1 < n <;>
      simp only [p_levels, h1, h2, if_pos, if_neg, List.append_nil,
        List.mem_append, List.mem_singleton, if_true, if_false] at hl <;>
      tauto

theorem mem_cellList (rows cols : ℕ) (c : Cell) :
    c ∈ cellList rows cols ↔ c.1 < rows ∧ c.2 < cols := by
  cases c with
  | mk i j => simp [cellList]

theorem cellList_length (rows cols : ℕ) :
    (cellList rows cols).length = rows * cols := by
  induction rows with
  | zero => simp [cellList]
  | succ r ih =>
    simp only [cellList, List.range_succ, List.flatMap_append, List.length_append,
      List.flatMap_singleton, List.length_map, List.length_range] at ih ⊢
    rw [ih]
    ring

/-- C6: for every field and every iso-value, a binary mask that is
entirely false or entirely true yields zero contours for that level
(the contour finder returns the empty list instead of failing). -/
theorem degenerate_mask_zero_contours (rows cols mrows mcols : ℕ) (x y : ℕ → ℚ)
    (field : ℕ → ℕ → ℚ) (level : ℚ)
    (hdeg : (∀ i j, i < rows → j < cols → level ≤ field i j) ∨
            (∀ i j, i < rows → j < cols → ¬ level ≤ field i j)) :
    find_contours rows cols mrows mcols x y
      (fun i j => decide (level ≤ field i j)) = [] := by
  have hcnt :
      (cellList rows cols).countP (fun c => decide (level ≤ field c.1 c.2)) = 0 ∨
      (cellList rows cols).countP (fun c => decide (level ≤ field c.1 c.2)) =
        rows * cols := by
    rcases hdeg with h | h
    · right
      rw [← cellList_length rows cols, List.countP_eq_length]
      intro c hc
      rcases (mem_cellList rows cols c).mp hc with ⟨h1, h2⟩
      simpa using h c.1 c.2 h1 h2
    · left
      rw [List.countP_eq_zero]
      intro c hc
      rcases (mem_cellList rows cols c).mp hc with ⟨h1, h2⟩
      simpa using h c.1 c.2 h1 h2
  unfold find_contours
  rcases hcnt with h | h <;> simp [h]

/-- C6 witness: a 2-by-2 field constantly 5 against the iso-value 3. -/
theorem degenerate_mask_zero_contours_witness :
    ((∀ i j : ℕ, i < 2 → j < 2 → (3 : ℚ) ≤ (fun _ _ => (5 : ℚ)) i j) ∨
     (∀ i j : ℕ, i < 2 → j < 2 → ¬ (3 : ℚ) ≤ (fun _ _ => (5 : ℚ)) i j)) ∧
    find_contours 2 2 2 2 (fun i => (i : ℚ)) (fun j => (j : ℚ))
      (fun i j => decide ((3 : ℚ) ≤ (fun _ _ => (5 : ℚ)) i j)) = [] :=
  have hd : (∀ i j : ℕ, i < 2 → j < 2 → (3 : ℚ) ≤ (fun _ _ => (5 : ℚ)) i j) ∨
      (∀ i j : ℕ, i < 2 → j < 2 → ¬ (3 : ℚ) ≤ (fun _ _ => (5 : ℚ)) i j) :=
    Or.inl (fun i j _ _ => by norm_num)
  ⟨hd, degenerate_mask_zero_contours 2 2 2 2 (fun i => (i : ℚ)) (fun j => (j : ℚ))
    (fun _ _ => (5 : ℚ)) 3 hd⟩

/-- Douglas-Peucker always returns its two endpoints around some interior
subsequence, for any fuel. -/
theorem dpAux_shape (fuel : ℕ) (tol2 : ℚ) :
    ∀ (a : Pt) (mid : List Pt) (b : Pt),
      ∃ interior, dpAux fuel tol2 a mid b = a :: interior ++ [b] := by
  induction fuel with
  | zero => exact fun a mid b => ⟨[], rfl⟩
  | succ f ih =>
    intro a mid b
    simp only [dpAux]
    cases hm : argmaxSeg a b mid with
    | none => exact ⟨[], rfl⟩
    | some kd =>
      dsimp only
      by_cases hle : kd.2 ≤ tol2
      · rw [if_pos hle]
        exact ⟨[], rfl⟩
      · rw [if_neg hle]
        obtain ⟨l2, hl⟩ := ih a (mid.take kd.1) (mid.getD kd.1 a)
        obtain ⟨r2, hr⟩ := ih (mid.getD kd.1 a) (mid.drop (kd.1 + 1)) b
        refine ⟨l2 ++ mid.getD kd.1 a :: r2, ?_⟩
        rw [hl, hr]
        simp

/-- The simplified polyline keeps the first point in front and the last
point at the back. -/
theorem simplify_shape (sd : ℚ) (a b : Pt) (rest : List Pt) :
    ∃ interior, simplify sd (a :: b :: rest) =
      a :: interior ++ [(b :: rest).getLast (List.cons_ne_nil b rest)] := by
  simp only [simplify]
  exact dpAux_shape (rest.length + 2) (sd * sd) a
    ((b :: rest).dropLast) ((b :: rest).getLast (List.cons_ne_nil b rest))

/-- Every contour returned by the finder is some first point, a middle
part, and that same first point appended again. -/
theorem find_contours_mem_shape (rows cols mrows mcols : ℕ) (x y : ℕ → ℚ)
    (z : ℕ → ℕ → Bool) (c : List Pt)
    (hc : c ∈ find_contours rows cols mrows mcols x y z) :
    ∃ h t, c = (h :: t) ++ [h] := by
  unfold find_contours at hc
  dsimp only at hc
  split at hc
  · exact absurd hc (List.not_mem_nil c)
  · rw [List.mem_filterMap] at hc
    obtain ⟨comp, _, hf⟩ := hc
    split at hf
    · exact absurd hf (by simp)
    · split at hf
      · exact absurd hf (by simp)
      · rename_i h t heq
        exact ⟨h, t, (Option.some.inj hf).symm⟩

/-- C9: every contour the finder emits is closed, with its first
coordinate exactly equal to its last; simplification preserves both
endpoints exactly and never returns fewer than 2 points; consequently the
simplified contours the pipeline emits are closed as well. -/
theorem contours_closed (rows cols mrows mcols : ℕ) (x y : ℕ → ℚ)
    (z : ℕ → ℕ → Bool) (sd : ℚ) :
    (∀ c ∈ find_contours rows cols mrows mcols x y z,
      c ≠ [] ∧ c.head? = c.getLast?) ∧
    (∀ poly : List Pt, 2 ≤ poly.length →
      (simplify sd poly).head? = poly.head? ∧
      (simplify sd poly).getLast? = poly.getLast? ∧
      2 ≤ (simplify sd poly).length) ∧
    (∀ c ∈ (find_contours rows cols mrows mcols x y z).map (simplify sd),
      c ≠ [] ∧ c.head? = c.getLast?) := by
  have hsimp : ∀ poly : List Pt, 2 ≤ poly.length →
      (simplify sd poly).head? = poly.head? ∧
      (simplify sd poly).getLast? = poly.getLast? ∧
      2 ≤ (simplify sd poly).length := by
    intro poly hlen
    match poly, hlen with
    | a :: b :: rest, _ =>
      obtain ⟨interior, hshape⟩ := simplify_shape sd a b rest
      rw [hshape]
      refine ⟨rfl, ?_, ?_⟩
      · rw [show a :: interior ++ [(b :: rest).getLast (List.cons_ne_nil b rest)] =
            (a :: interior) ++ [(b :: rest).getLast (List.cons_ne_nil b rest)] from rfl,
          List.getLast?_concat, List.getLast?_cons_cons,
          List.getLast?_eq_getLast (b :: rest) (List.cons_ne_nil b rest)]
      · simp
  have hfind : ∀ c ∈ find_contours rows cols mrows mcols x y z,
      c ≠ [] ∧ c.head? = c.getLast? := by
    intro c hc
    obtain ⟨h, t, rfl⟩ := find_contours_mem_shape rows cols mrows mcols x y z c hc
    refine ⟨by simp, ?_⟩
    rw [List.getLast?_concat]
    rfl
  refine ⟨hfind, hsimp, ?_⟩
  intro c hc
  rw [List.mem_map] at hc
  obtain ⟨c0, hc0, rfl⟩ := hc
  obtain ⟨h, t, rfl⟩ := find_contours_mem_shape rows cols mrows mcols x y z c0 hc0
  have hlen : 2 ≤ ((h :: t) ++ [h]).length := by simp
  obtain ⟨h1, h2, h3⟩ := hsimp ((h :: t) ++ [h]) hlen
  refine ⟨?_, ?_⟩
  · intro hnil
    rw [hnil] at h3
    simp at h3
  · rw [h1, h2, List.getLast?_concat]
    rfl

/-- C9 witness: the concrete 4x4 block mask produces one closed contour,
and simplification with tolerance 0 keeps its endpoints and length. -/
theorem contours_closed_witness :
    (contW ∈ find_contours 4 4 4 4 (fun i => (i : ℚ)) (fun j => (j : ℚ)) blockMask) ∧
    (contW ≠ [] ∧ contW.head? = contW.getLast?) ∧
    2 ≤ contW.length ∧
    ((simplify 0 contW).head? = contW.head? ∧
      (simplify 0 contW).getLast? = contW.getLast? ∧
      2 ≤ (simplify 0 contW).length) := by
  have hmem : contW ∈ find_contours 4 4 4 4 (fun i => (i : ℚ)) (fun j => (j : ℚ))
      blockMask := by
    with_unfolding_all decide
  have hth := contours_closed 4 4 4 4 (fun i => (i : ℚ)) (fun j => (j : ℚ)) blockMask 0
  exact ⟨hmem, hth.1 contW hmem, by decide, hth.2.1 contW (by decide)⟩

theorem bcIdx_lt (n i : ℕ) (h : i < n) : bcIdx n i = i := by
  unfold bcIdx
  split
  · omega
  · rfl

/-- Folding numpy addition over arrays of one common shape never fails and
adds the arrays cellwise (on the cells inside the shape). -/
theorem foldlM_addB_uniform (l : List Arr) (a : Arr)
    (hsh : ∀ b ∈ l, b.rows = a.rows ∧ b.cols = a.cols) :
    ∃ v : Arr, l.foldlM addB a = Except.ok v ∧ v.rows = a.rows ∧ v.cols = a.cols ∧
      ∀ i j, i < a.rows → j < a.cols →
        v.val i j = a.val i j + (l.map (fun b => b.val i j)).sum := by
  induction l generalizing a with
  | nil => exact ⟨a, rfl, rfl, rfl, fun i j _ _ => by simp⟩
  | cons b t ih =>
    obtain ⟨hbr, hbc⟩ := hsh b (List.mem_cons_self b t)
    have haddB : addB a b = Except.ok
        ⟨a.rows, a.cols, fun i j =>
          a.val (bcIdx a.rows i) (bcIdx a.cols j) +
          b.val (bcIdx b.rows i) (bcIdx b.cols j)⟩ := by
      unfold addB
      rw [hbr, hbc]
      simp [bcDim]
    set m : Arr :=
      ⟨a.rows, a.cols, fun i j =>
        a.val (bcIdx a.rows i) (bcIdx a.cols j) +
        b.val (bcIdx b.rows i) (bcIdx b.cols j)⟩ with hm
    obtain ⟨v, hfold, hvr, hvc, hval⟩ := ih m (by
      intro b2 hb2
      obtain ⟨h1, h2⟩ := hsh b2 (List.mem_cons_of_mem b hb2)
      exact ⟨h1, h2⟩)
    refine ⟨v, ?_, hvr, hvc, ?_⟩
    · rw [List.foldlM_cons, haddB]
      simpa using hfold
    · intro i j hi hj
      rw [hval i j hi hj]
      have hmv : m.val i j = a.val i j + b.val i j := by
        rw [hm]
        dsimp only
        rw [bcIdx_lt a.rows i hi, bcIdx_lt a.cols j hj,
          bcIdx_lt b.rows i (hbr ▸ hi), bcIdx_lt b.cols j (hbc ▸ hj)]
      rw [hmv, List.map_cons, List.sum_cons]
      ring

/-- The cellwise sum of the binary masks is the presence count. -/
theorem binary_sum_eq_presentCount (surfaces : List Surf) (threshold : ℚ) (i j : ℕ) :
    ((surfaces.map (binaryArr threshold)).map (fun b => b.val i j)).sum =
      (presentCount surfaces threshold i j : ℚ) := by
  induction surfaces with
  | nil => simp [presentCount]
  | cons s t ih =>
    simp only [List.map_cons, List.sum_cons, presentCount, List.countP_cons,
      decide_eq_true_eq] at ih ⊢
    rw [ih]
    by_cases hp : (if s.missing i j then (0 : ℚ) else s.val i j) > threshold
    · rw [show (binaryArr threshold s).val i j = 1 by simp [binaryArr, hp],
        if_pos hp]
      push_cast
      ring
    · rw [show (binaryArr threshold s).val i j = 0 by simp [binaryArr, hp],
        if_neg hp]
      push_cast
      ring

/-- The numpy sum of the binary masks of a nonempty uniformly-shaped
surface list succeeds and counts, per cell, the present realizations. -/
theorem sumArrs_uniform (s0 : Surf) (rest : List Surf) (threshold : ℚ)
    (hsh : ∀ s ∈ s0 :: rest, s.ncol = s0.ncol ∧ s.nrow = s0.nrow) :
    ∃ v : Arr,
      sumArrs ((s0 :: rest).map (binaryArr threshold)) = Except.ok (some v) ∧
      v.rows = s0.ncol ∧ v.cols = s0.nrow ∧
      ∀ i j, i < s0.ncol → j < s0.nrow →
        v.val i j = (presentCount (s0 :: rest) threshold i j : ℚ) := by
  obtain ⟨v, hfold, hvr, hvc, hval⟩ :=
    foldlM_addB_uniform (rest.map (binaryArr threshold)) (binaryArr threshold s0)
      (by
        intro b hb
        rw [List.mem_map] at hb
        obtain ⟨s, hs, rfl⟩ := hb
        obtain ⟨h1, h2⟩ := hsh s (List.mem_cons_of_mem s0 hs)
        exact ⟨h1, h2⟩)
  refine ⟨v, ?_, hvr, hvc, ?_⟩
  · rw [show (s0 :: rest).map (binaryArr threshold) =
        binaryArr threshold s0 :: rest.map (binaryArr threshold) from rfl]
    unfold sumArrs
    dsimp only
    rw [hfold]
    rfl
  · intro i j hi hj
    rw [hval i j hi hj]
    have := binary_sum_eq_presentCount (s0 :: rest) threshold i j
    simp only [List.map_cons, List.sum_cons] at this
    exact this

/-- C7: with zero smoothing, truncate_surfaces is the identity on the
count field: the value at each cell is exactly the number of realizations
whose missing-replaced value strictly exceeds the threshold, an integer
between 0 and the number of realizations. -/
theorem truncate_surfaces_sigma_zero (s0 : Surf) (rest : List Surf) (threshold : ℚ)
    (hsh : ∀ s ∈ s0 :: rest, s.ncol = s0.ncol ∧ s.nrow = s0.nrow) :
    okShape (truncate_surfaces (s0 :: rest) threshold 0) = some (s0.ncol, s0.nrow) ∧
    ∀ i j, i < s0.ncol → j < s0.nrow →
      okCell (truncate_surfaces (s0 :: rest) threshold 0) i j =
        some ((presentCount (s0 :: rest) threshold i j : ℝ)) ∧
      presentCount (s0 :: rest) threshold i j ≤ (s0 :: rest).length := by
  obtain ⟨v, hsum, hvr, hvc, hval⟩ := sumArrs_uniform s0 rest threshold hsh
  have htr : truncate_surfaces (s0 :: rest) threshold 0 =
      Except.ok (some (gaussian_filter 0 v)) := by
    unfold truncate_surfaces
    rw [hsum]
    rfl
  have hg : gaussian_filter 0 v = q2r v := by
    unfold gaussian_filter
    rw [if_neg (by norm_num)]
  constructor
  · rw [htr, hg]
    simp [okShape, q2r, hvr, hvc]
  · intro i j hi hj
    constructor
    · rw [htr, hg]
      simp only [okCell, q2r]
      rw [hval i j hi hj]
      norm_num
    · exact List.countP_le_length _

/-- C7 witness: two equal-shape surfaces of ones against threshold 0. -/
theorem truncate_surfaces_sigma_zero_witness :
    (∀ s ∈ [surfB, surfB], s.ncol = surfB.ncol ∧ s.nrow = surfB.nrow) ∧
    (okShape (truncate_surfaces [surfB, surfB] 0 0) = some (surfB.ncol, surfB.nrow) ∧
      ∀ i j, i < surfB.ncol → j < surfB.nrow →
        okCell (truncate_surfaces [surfB, surfB] 0 0) i j =
          some ((presentCount [surfB, surfB] 0 i j : ℝ)) ∧
        presentCount [surfB, surfB] 0 i j ≤ [surfB, surfB].length) :=
  have hsh : ∀ s ∈ [surfB, surfB], s.ncol = surfB.ncol ∧ s.nrow = surfB.nrow := by
    intro s hs
    rcases List.mem_cons.mp hs with h | h
    · subst h; exact ⟨rfl, rfl⟩
    · rw [List.mem_singleton] at h
      subst h; exact ⟨rfl, rfl⟩
  ⟨hsh, truncate_surfaces_sigma_zero surfB [surfB] 0 hsh⟩

theorem gw_pos (sigma : ℚ) (k : ℤ) : 0 < gw sigma k := Real.exp_pos _

/-- The normalized Gaussian kernel weights are nonnegative. -/
theorem gkern_nonneg (sigma : ℚ) (k : ℤ) : 0 ≤ gkern sigma k := by
  unfold gkern
  apply div_nonneg (le_of_lt (gw_pos sigma k))
  apply le_of_lt
  apply Finset.sum_pos (fun i _ => gw_pos sigma i)
  exact Finset.nonempty_Icc.mpr (by omega)

theorem clampIdx_lt (n : ℕ) (z : ℤ) (h : 0 < n) : clampIdx n z < n := by
  unfold clampIdx
  have h1 : min z ((n : ℤ) - 1) ≤ (n : ℤ) - 1 := min_le_right _ _
  have h2 : max 0 (min z ((n : ℤ) - 1)) ≤ (n : ℤ) - 1 := max_le (by omega) h1
  omega

/-- Gaussian smoothing is cellwise monotone: nonnegative kernel weights
and replicate-edge indexing preserve the cellwise order of the inputs. -/
theorem gaussian_filter_mono (sigma : ℚ) (u v : Arr)
    (hr : v.rows = u.rows) (hc : v.cols = u.cols)
    (hle : ∀ i j, i < u.rows → j < u.cols → u.val i j ≤ v.val i j)
    (i j : ℕ) (hi : i < u.rows) (hj : j < u.cols) :
    (gaussian_filter sigma u).val i j ≤ (gaussian_filter sigma v).val i j := by
  have hrpos : 0 < u.rows := lt_of_le_of_lt (Nat.zero_le i) hi
  have hcpos : 0 < u.cols := lt_of_le_of_lt (Nat.zero_le j) hj
  unfold gaussian_filter
  split
  · simp only [corrCols, corrRows, q2r, hr, hc]
    apply Finset.sum_le_sum
    intro k _
    apply mul_le_mul_of_nonneg_left ?_ (gkern_nonneg sigma k)
    apply Finset.sum_le_sum
    intro k2 _
    apply mul_le_mul_of_nonneg_left ?_ (gkern_nonneg sigma k2)
    exact Rat.cast_le.mpr
      (hle _ _ (clampIdx_lt u.rows _ hrpos) (clampIdx_lt u.cols _ hcpos))
  · simp only [q2r]
    exact Rat.cast_le.mpr (hle i j hi hj)

/-- C8: appending one realization of the same shape never decreases any
cell of the field returned by truncate_surfaces: the presence count is
cellwise monotone, and the nonnegative Gaussian smoothing kernel preserves
that order. -/
theorem truncate_surfaces_monotone (s0 sNew : Surf) (rest : List Surf)
    (threshold smoothing : ℚ)
    (hsh : ∀ s ∈ s0 :: rest, s.ncol = s0.ncol ∧ s.nrow = s0.nrow)
    (hshNew : sNew.ncol = s0.ncol ∧ sNew.nrow = s0.nrow)
    (i j : ℕ) (hi : i < s0.ncol) (hj : j < s0.nrow) (a b : ℝ)
    (ha : okCell (truncate_surfaces (s0 :: rest) threshold smoothing) i j = some a)
    (hb : okCell (truncate_surfaces ((s0 :: rest) ++ [sNew]) threshold smoothing) i j
        = some b) :
    a ≤ b := by
  obtain ⟨v1, hsum1, hr1, hc1, hval1⟩ := sumArrs_uniform s0 rest threshold hsh
  have hsh2 : ∀ s ∈ s0 :: (rest ++ [sNew]), s.ncol = s0.ncol ∧ s.nrow = s0.nrow := by
    intro s hs
    rcases List.mem_cons.mp hs with h | h
    · subst h; exact ⟨rfl, rfl⟩
    · rcases List.mem_append.mp h with h2 | h2
      · exact hsh s (List.mem_cons_of_mem s0 h2)
      · rw [List.mem_singleton] at h2
        subst h2; exact hshNew
  obtain ⟨v2, hsum2, hr2, hc2, hval2⟩ :=
    sumArrs_uniform s0 (rest ++ [sNew]) threshold hsh2
  have htr1 : truncate_surfaces (s0 :: rest) threshold smoothing =
      Except.ok (some (gaussian_filter smoothing v1)) := by
    unfold truncate_surfaces
    rw [hsum1]
    rfl
  have htr2 : truncate_surfaces ((s0 :: rest) ++ [sNew]) threshold smoothing =
      Except.ok (some (gaussian_filter smoothing v2)) := by
    unfold truncate_surfaces
    rw [show (s0 :: rest) ++ [sNew] = s0 :: (rest ++ [sNew]) from rfl, hsum2]
    rfl
  rw [htr1] at ha
  rw [htr2] at hb
  simp only [okCell] at ha hb
  rw [← Option.some.inj ha, ← Option.some.inj hb]
  apply gaussian_filter_mono smoothing v1 v2 (by rw [hr2, hr1]) (by rw [hc2, hc1])
    ?_ i j (by rw [hr1]; exact hi) (by rw [hc1]; exact hj)
  intro i2 j2 hi2 hj2
  have hi2c : i2 < s0.ncol := by rw [← hr1]; exact hi2
  have hj2c : j2 < s0.nrow := by rw [← hc1]; exact hj2
  rw [hval1 i2 j2 hi2c hj2c, hval2 i2 j2 hi2c hj2c]
  have hcount : presentCount (s0 :: rest) threshold i2 j2 ≤
      presentCount (s0 :: (rest ++ [sNew])) threshold i2 j2 := by
    show List.countP _ (s0 :: rest) ≤ List.countP _ (s0 :: (rest ++ [sNew]))
    rw [show s0 :: (rest ++ [sNew]) = (s0 :: rest) ++ [sNew] from rfl,
      List.countP_append]
    exact Nat.le_add_right _ _
  exact_mod_cast hcount

/-- C8 witness: duplicating the all-ones surface with zero smoothing. -/
theorem truncate_surfaces_monotone_witness :
    ∃ a b : ℝ,
      okCell (truncate_surfaces [surfB] 0 0) 0 0 = some a ∧
      okCell (truncate_surfaces ([surfB] ++ [surfB]) 0 0) 0 0 = some b ∧
      a ≤ b :=
  have hsh : ∀ s ∈ [surfB], s.ncol = surfB.ncol ∧ s.nrow = surfB.nrow := by
    intro s hs
    rw [List.mem_singleton] at hs
    subst hs; exact ⟨rfl, rfl⟩
  ⟨_, _, rfl, rfl,
    truncate_surfaces_monotone surfB surfB [] 0 0 hsh ⟨rfl, rfl⟩ 0 0
      (by decide) (by decide) _ _ rfl rfl⟩

/-- C1 witness: three surfaces. -/
theorem p_levels_gating_witness :
    1 ≤ 3 ∧
    (lit01 ∈ p_levels 3 ∧
      (lit05 ∈ p_levels 3 ↔ 2 < 3) ∧
      (lit09 ∈ p_levels 3 ↔ 1 < 3) ∧
      (∀ l ∈ p_levels 3, l = lit01 ∨ (l = lit05 ∧ 2 < 3) ∨ (l = lit09 ∧ 1 < 3)) ∧
      plume_levels 3 = (p_levels 3).map (fun lvl => mulD lvl (3 : ℚ))) :=
  ⟨by decide, p_levels_gating 3 (by decide)⟩

end PlumeExtent
